import Mathlib

/-!
Verification of the Hamiltonian-construction core of scripts/QCD-RE.py:
momentum sampling, pairwise coupling computation over a complete graph,
and expansion of the weighted graph into Pauli operator strings.

Randomness is modelled by passing the sampled values explicitly: the
Gaussian draw of a momentum sample is the argument of
generate_spherical_momentum, and the per-particle momentum assignment is
the argument of generate_heisenberg_graph.
-/

namespace QCDRE

/-- A 3-vector of real components, modelling a momentum value. -/
abbrev Vec3 := ℝ × ℝ × ℝ

/-- The ordinary 3-vector inner product, modelling np.inner on length-3 lists. -/
def inner3 (p q : Vec3) : ℝ :=
  p.1 * q.1 + p.2.1 * q.2.1 + p.2.2 * q.2.2

/-- Euclidean norm of a 3-vector. -/
noncomputable def norm3 (p : Vec3) : ℝ :=
  Real.sqrt (p.1 ^ 2 + p.2.1 ^ 2 + p.2.2 ^ 2)

/-- Embedding of generate_spherical_momentum: given the Gaussian draw
(x, y, z), rescale each component by the reciprocal of the Euclidean norm. -/
noncomputable def generate_spherical_momentum (x y z : ℝ) : Vec3 :=
  let constant := 1 / Real.sqrt (x ^ 2 + y ^ 2 + z ^ 2)
  (constant * x, constant * y, constant * z)

/-- Embedding of define_forward_scattering_term: the coupling weight
(1 / (sqrt 2 * n)) * (1 - inner product of the two momenta). -/
noncomputable def define_forward_scattering_term (n_neutrinos : ℕ)
    (curr_momentum neighbor_momentum : Vec3) : ℝ :=
  let normalization_factor := 1 / (Real.sqrt 2 * n_neutrinos)
  let couplings := 1 - inner3 curr_momentum neighbor_momentum
  normalization_factor * couplings

/-- Embedding of gen_couplings: look the two momenta up in the momentum
assignment and hand them to define_forward_scattering_term. -/
noncomputable def gen_couplings (n_neutrinos curr_id neighbor_id : ℕ)
    (momentum : ℕ → Vec3) : ℝ :=
  define_forward_scattering_term n_neutrinos (momentum curr_id)
    (momentum neighbor_id)

/-- A weighted undirected graph in the shape the script builds it: nodes in
insertion order, each carrying its site weight, and edges in insertion order
(which for a networkx graph built this way is also the iteration order of
g.edges), each carrying its coupling weight. -/
structure Graph where
  nodes : List (ℕ × ℝ)
  edges : List (ℕ × ℕ × ℝ)

/-- One pass of the inner site loop of nx_heisenberg_terms for one Pauli
axis: for each site index i in the list, overwrite the buffer at i with
the axis symbol when i hits either endpoint, and record a snapshot of the
buffer after every index, changed or not.  Returns the final buffer and
the snapshots in order. -/
def axisPass (n1 n2 : ℕ) (pauli : Char) :
    List Char → List ℕ → List Char × List (List Char)
  | buf, [] => (buf, [])
  | buf, i :: is =>
    let buf1 := if i = n1 ∨ i = n2 then buf.set i pauli else buf
    let rest := axisPass n1 n2 pauli buf1 is
    (rest.1, buf1 :: rest.2)

/-- The middle loop of nx_heisenberg_terms: run axisPass once per Pauli
axis, threading the buffer through (the buffer is not reset between axes). -/
def pauliPasses (n n1 n2 : ℕ) :
    List Char → List Char → List Char × List (List Char)
  | buf, [] => (buf, [])
  | buf, p :: ps =>
    let r1 := axisPass n1 n2 p buf (List.range n)
    let r2 := pauliPasses n n1 n2 r1.1 ps
    (r2.1, r1.2 ++ r2.2)

/-- Embedding of nx_heisenberg_terms: for each edge, initialize the buffer
to n copies of Identity and run the three axis passes X, Y, Z, pairing
every snapshot with the edge weight. -/
def nx_heisenberg_terms (g : Graph) : List (List Char × ℝ) :=
  let n := g.nodes.length
  g.edges.flatMap fun e =>
    ((pauliPasses n e.1 e.2.1 (List.replicate n 'I') ['X', 'Y', 'Z']).2).map
      fun s => (s, e.2.2)

/-- Embedding of generate_heisenberg_graph: nodes 0..n-1 each carrying the
site interaction, and one edge per ordered-by-index pair (i, j), i < j,
carrying the coupling weight computed from the momentum assignment. -/
noncomputable def generate_heisenberg_graph (n_neutrinos : ℕ) (momentum : ℕ → Vec3)
    (site_interaction : ℝ) : Graph where
  nodes := (List.range n_neutrinos).map fun i => (i, site_interaction)
  edges := (List.range n_neutrinos).flatMap fun i =>
    ((List.range n_neutrinos).drop (i + 1)).map fun j =>
      (i, j, gen_couplings n_neutrinos i j momentum)

/-- Modelled from the spec: flatten_nx_graph is an external relabeling
collaborator (its code is not under src/) that relabels node identifiers
to a contiguous integer range 0..N-1; on graphs whose node identifiers are
already 0..N-1 in order, as generate_heisenberg_graph produces them, it
leaves the graph unchanged. -/
def flatten_nx_graph (g : Graph) : Graph := g

/-- Embedding of generate_forward_scattering: build the graph, flatten it,
and expand it into Hamiltonian terms. -/
noncomputable def generate_forward_scattering (n_neutrinos : ℕ) (momentum : ℕ → Vec3)
    (site_interactions : ℝ) : List (List Char × ℝ) :=
  nx_heisenberg_terms
    (flatten_nx_graph (generate_heisenberg_graph n_neutrinos momentum
      site_interactions))

/-! Basic structural lemmas about the term expansion. -/

/-- One axis pass emits one snapshot per site index. -/
lemma axisPass_snd_length (n1 n2 : ℕ) (p : Char) (buf : List Char)
    (l : List ℕ) : ((axisPass n1 n2 p buf l).2).length = l.length := by
  induction l generalizing buf with
  | nil => rfl
  | cons i is ih => simp [axisPass, ih]

/-- The axis passes together emit one snapshot per (axis, site index) pair. -/
lemma pauliPasses_snd_length (n n1 n2 : ℕ) (buf : List Char)
    (ps : List Char) :
    ((pauliPasses n n1 n2 buf ps).2).length = ps.length * n := by
  induction ps generalizing buf with
  | nil => simp [pauliPasses]
  | cons p ps ih =>
    simp [pauliPasses, axisPass_snd_length, ih, Nat.succ_mul, Nat.add_comm]

/-- C1: nx_heisenberg_terms appends exactly 3*N terms for each edge of a
graph with N nodes, so the returned Hamiltonian has exactly
3 * N * edge_count terms in total. -/
theorem nx_heisenberg_terms_length (g : Graph) :
    (nx_heisenberg_terms g).length =
      3 * g.nodes.length * g.edges.length := by
  obtain ⟨nodes, edges⟩ := g
  induction edges with
  | nil => rfl
  | cons e es ih =>
    simp only [nx_heisenberg_terms, List.flatMap_cons, List.length_append,
      List.length_map, pauliPasses_snd_length, List.length_cons,
      List.length_nil] at ih ⊢
    rw [ih]
    ring

/-- C2: for a 2-node graph (one edge, endpoints 0 and 1), expansion yields
exactly the six terms XI, XX, YX, YY, ZY, ZZ in order, every axis pass
ending at XX, YY, ZZ respectively, all six carrying the one coupling
weight computed from the two particles' momenta. -/
theorem two_node_expansion (m : ℕ → Vec3) (s : ℝ) :
    nx_heisenberg_terms (generate_heisenberg_graph 2 m s) =
      [(['X', 'I'], define_forward_scattering_term 2 (m 0) (m 1)),
       (['X', 'X'], define_forward_scattering_term 2 (m 0) (m 1)),
       (['Y', 'X'], define_forward_scattering_term 2 (m 0) (m 1)),
       (['Y', 'Y'], define_forward_scattering_term 2 (m 0) (m 1)),
       (['Z', 'Y'], define_forward_scattering_term 2 (m 0) (m 1)),
       (['Z', 'Z'], define_forward_scattering_term 2 (m 0) (m 1))] := rfl

/-- C5: the coupling weight is commutative in its two momentum arguments. -/
theorem define_forward_scattering_term_comm (n : ℕ) (p q : Vec3) :
    define_forward_scattering_term n p q =
      define_forward_scattering_term n q p := by
  unfold define_forward_scattering_term inner3
  ring_nf

/-! Edge membership in the generated graph. -/

/-- Dropping the first k entries of range n leaves the run from k. -/
lemma drop_range (k n : ℕ) :
    (List.range n).drop k = List.range' k (n - k) := by
  rcases Nat.le_total k n with h | h
  · have happ := List.range'_append_1 0 k (n - k)
    rw [Nat.zero_add, Nat.sub_add_cancel h] at happ
    rw [List.range_eq_range', ← happ, List.drop_left' (List.length_range' 0 1 k)]
  · rw [Nat.sub_eq_zero_of_le h, List.drop_eq_nil_of_le (by simpa using h)]
    rfl

/-- Membership in the dropped range is exactly the interval constraint. -/
lemma mem_drop_range (i j n : ℕ) :
    j ∈ (List.range n).drop (i + 1) ↔ i < j ∧ j < n := by
  rw [drop_range, List.mem_range'_1]
  omega

/-- The edges of the generated graph are exactly the ordered pairs i < j < n
carrying the coupling weight from the momentum assignment. -/
lemma mem_edges_iff (n : ℕ) (m : ℕ → Vec3) (s : ℝ) (i j : ℕ) (w : ℝ) :
    (i, j, w) ∈ (generate_heisenberg_graph n m s).edges ↔
      i < j ∧ j < n ∧ w = gen_couplings n i j m := by
  simp only [generate_heisenberg_graph, List.mem_flatMap, List.mem_range,
    List.mem_map, mem_drop_range, Prod.mk.injEq]
  constructor
  · rintro ⟨i', hi', j', ⟨hij', hj'n⟩, rfl, rfl, rfl⟩
    exact ⟨hij', hj'n, rfl⟩
  · rintro ⟨hij, hjn, rfl⟩
    exact ⟨i, by omega, j, ⟨hij, hjn⟩, rfl, rfl, rfl⟩

/-- C3: every edge of the generated graph between particles i and j carries
the weight (1 / (sqrt 2 * n_particles)) * (1 - momentum_i dot momentum_j). -/
theorem edge_weight_formula (n : ℕ) (m : ℕ → Vec3) (s : ℝ) (i j : ℕ)
    (w : ℝ) (h : (i, j, w) ∈ (generate_heisenberg_graph n m s).edges) :
    w = 1 / (Real.sqrt 2 * n) * (1 - inner3 (m i) (m j)) := by
  rw [((mem_edges_iff n m s i j w).1 h).2.2]
  rfl

/-- Concrete instance of edge_weight_formula: in the 2-particle graph with
constant momentum assignment, the single edge's weight obeys the formula. -/
theorem edge_weight_formula_witness :
    (((0 : ℕ), (1 : ℕ), gen_couplings 2 0 1 fun _ => ((1 : ℝ), 0, 0)) ∈
        (generate_heisenberg_graph 2 (fun _ => ((1 : ℝ), 0, 0)) 0).edges) ∧
      gen_couplings 2 0 1 (fun _ => ((1 : ℝ), 0, 0)) =
        1 / (Real.sqrt 2 * 2) *
          (1 - inner3 ((1 : ℝ), 0, 0) ((1 : ℝ), 0, 0)) := by
  have hmem := (mem_edges_iff 2 (fun _ => ((1 : ℝ), 0, 0)) 0 0 1
    (gen_couplings 2 0 1 fun _ => ((1 : ℝ), 0, 0))).2
    ⟨by norm_num, by norm_num, rfl⟩
  exact ⟨hmem, by
    have := edge_weight_formula 2 (fun _ => ((1 : ℝ), 0, 0)) 0 0 1
      (gen_couplings 2 0 1 fun _ => ((1 : ℝ), 0, 0)) hmem
    simpa using this⟩

/-- C4: the generated graph has exactly n nodes with the sequential
identifiers 0..n-1 and exactly n*(n-1)/2 edges, with an edge present for
an ordered pair (i, j) exactly when i < j < n, i.e. one edge for every
unordered pair of distinct nodes. -/
theorem graph_complete (n : ℕ) (m : ℕ → Vec3) (s : ℝ) :
    (generate_heisenberg_graph n m s).nodes.map Prod.fst = List.range n ∧
      (generate_heisenberg_graph n m s).nodes.length = n ∧
      (generate_heisenberg_graph n m s).edges.length = n * (n - 1) / 2 ∧
      ∀ i j : ℕ, (i < j ∧ j < n) ↔
        ∃ w : ℝ, (i, j, w) ∈ (generate_heisenberg_graph n m s).edges := by
  refine ⟨?_, ?_, ?_, ?_⟩
  · simp [generate_heisenberg_graph, List.map_map, Function.comp_def]
  · simp [generate_heisenberg_graph]
  · show (((List.range n).flatMap fun i =>
        ((List.range n).drop (i + 1)).map fun j =>
          (i, j, gen_couplings n i j m)).length) = n * (n - 1) / 2
    rw [List.length_flatMap]
    have hlen : ∀ i : ℕ, (List.length ∘ fun i =>
        ((List.range n).drop (i + 1)).map fun j =>
          (i, j, gen_couplings n i j m)) i = n - 1 - i := by
      intro i
      simp only [Function.comp_apply, List.length_map, List.length_drop,
        List.length_range]
      omega
    rw [List.map_congr_left fun i _ => hlen i]
    have hbridge : (List.map (fun i => n - 1 - i) (List.range n)).sum =
        ∑ i in Finset.range n, (n - 1 - i) := rfl
    rw [hbridge, Finset.sum_range_reflect (fun j => j) n]
    exact Finset.sum_range_id n
  · intro i j
    constructor
    · rintro ⟨hij, hjn⟩
      exact ⟨gen_couplings n i j m,
        (mem_edges_iff n m s i j _).2 ⟨hij, hjn, rfl⟩⟩
    · rintro ⟨w, hw⟩
      have h := (mem_edges_iff n m s i j w).1 hw
      exact ⟨h.1, h.2.1⟩

/-- C6: whenever the Gaussian draw has nonzero norm, the rescaled momentum
vector has Euclidean norm exactly 1 (in real arithmetic). -/
theorem spherical_momentum_unit_norm (x y z : ℝ)
    (h : x ^ 2 + y ^ 2 + z ^ 2 ≠ 0) :
    norm3 (generate_spherical_momentum x y z) = 1 := by
  have hS : (0 : ℝ) < x ^ 2 + y ^ 2 + z ^ 2 :=
    lt_of_le_of_ne (by positivity) (Ne.symm h)
  simp only [norm3, generate_spherical_momentum]
  have hexp : (1 / Real.sqrt (x ^ 2 + y ^ 2 + z ^ 2) * x) ^ 2 +
      (1 / Real.sqrt (x ^ 2 + y ^ 2 + z ^ 2) * y) ^ 2 +
      (1 / Real.sqrt (x ^ 2 + y ^ 2 + z ^ 2) * z) ^ 2 =
      (x ^ 2 + y ^ 2 + z ^ 2) / Real.sqrt (x ^ 2 + y ^ 2 + z ^ 2) ^ 2 := by
    ring
  rw [hexp, Real.sq_sqrt hS.le, div_self (ne_of_gt hS), Real.sqrt_one]

/-- Concrete instance of spherical_momentum_unit_norm at the draw (3, 0, 4). -/
theorem spherical_momentum_unit_norm_witness :
    ((3 : ℝ) ^ 2 + 0 ^ 2 + 4 ^ 2 ≠ 0) ∧
      norm3 (generate_spherical_momentum 3 0 4) = 1 :=
  ⟨by norm_num, spherical_momentum_unit_norm 3 0 4 (by norm_num)⟩

/-- C7: for particle count at most 1 the constructed graph has no edges and
generate_forward_scattering returns the empty term sequence. -/
theorem forward_scattering_degenerate (n : ℕ) (m : ℕ → Vec3) (s : ℝ)
    (h : n ≤ 1) : generate_forward_scattering n m s = [] := by
  interval_cases n
  · rfl
  · rfl

/-- Concrete instance of forward_scattering_degenerate at one particle. -/
theorem forward_scattering_degenerate_witness :
    1 ≤ 1 ∧ generate_forward_scattering 1 (fun _ => ((1 : ℝ), 0, 0)) 0 = [] :=
  ⟨le_refl 1,
    forward_scattering_degenerate 1 (fun _ => ((1 : ℝ), 0, 0)) 0 (le_refl 1)⟩

/-- C8: two runs over the same momentum assignment that differ only in the
site interaction value return identical Hamiltonian term sequences: the
site weight is attached to every node but never read by term expansion. -/
theorem site_interaction_noninterference (n : ℕ) (m : ℕ → Vec3)
    (s1 s2 : ℝ) :
    generate_forward_scattering n m s1 = generate_forward_scattering n m s2 := by
  unfold generate_forward_scattering flatten_nx_graph nx_heisenberg_terms
  simp only [generate_heisenberg_graph, List.length_map]

/-! Structure of the per-edge snapshot stream: all-Identity prefix and the
poisoning of position a once the first axis symbol lands there. -/

/-- axisPass over a concatenation of index lists runs the two segments in
order, threading the buffer. -/
lemma axisPass_append (n1 n2 : ℕ) (p : Char) (buf : List Char)
    (l1 l2 : List ℕ) :
    axisPass n1 n2 p buf (l1 ++ l2) =
      ((axisPass n1 n2 p (axisPass n1 n2 p buf l1).1 l2).1,
        (axisPass n1 n2 p buf l1).2 ++
          (axisPass n1 n2 p (axisPass n1 n2 p buf l1).1 l2).2) := by
  induction l1 generalizing buf with
  | nil => simp [axisPass]
  | cons i is ih => simp [axisPass, ih]

/-- On index lists avoiding both endpoints, an axis pass leaves the buffer
unchanged and emits one copy of it per index. -/
lemma axisPass_no_touch (n1 n2 : ℕ) (p : Char) (buf : List Char)
    (l : List ℕ) (h : ∀ i ∈ l, i ≠ n1 ∧ i ≠ n2) :
    axisPass n1 n2 p buf l = (buf, List.replicate l.length buf) := by
  induction l with
  | nil => rfl
  | cons i is ih =>
    have hi := h i (List.mem_cons_self i is)
    have hcond : ¬(i = n1 ∨ i = n2) := by tauto
    simp [axisPass, hcond, ih fun j hj => h j (List.mem_cons_of_mem i hj),
      List.replicate_succ]

/-- Once the buffer holds a non-Identity symbol at position a, an axis pass
with a non-Identity axis symbol keeps it there, both in the final buffer
and in every emitted snapshot. -/
lemma axisPass_poison (n1 n2 a : ℕ) (p : Char) (buf : List Char)
    (l : List ℕ) (hp : p ≠ 'I') (hbuf : buf[a]? ≠ some 'I') :
    (axisPass n1 n2 p buf l).1[a]? ≠ some 'I' ∧
      ∀ s ∈ (axisPass n1 n2 p buf l).2, s[a]? ≠ some 'I' := by
  induction l generalizing buf with
  | nil => exact ⟨hbuf, by simp [axisPass]⟩
  | cons i is ih =>
    have hbuf1 :
        (if i = n1 ∨ i = n2 then buf.set i p else buf)[a]? ≠ some 'I' := by
      by_cases hin : i = n1 ∨ i = n2
      · rw [if_pos hin, List.getElem?_set]
        by_cases hia : i = a
        · rw [if_pos hia]
          by_cases hlen : i < buf.length
          · rw [if_pos hlen]
            simp [hp]
          · rw [if_neg hlen]
            simp
        · rw [if_neg hia]
          exact hbuf
      · rw [if_neg hin]
        exact hbuf
    obtain ⟨h1, h2⟩ := ih _ hbuf1
    refine ⟨by simpa [axisPass] using h1, ?_⟩
    intro s hs
    simp only [axisPass, List.mem_cons] at hs
    rcases hs with rfl | hs
    · exact hbuf1
    · exact h2 s hs

/-- Poisoning persists through any number of later axis passes. -/
lemma pauliPasses_poison (n n1 n2 a : ℕ) (buf : List Char) (ps : List Char)
    (hp : ∀ p ∈ ps, p ≠ 'I') (hbuf : buf[a]? ≠ some 'I') :
    ∀ s ∈ (pauliPasses n n1 n2 buf ps).2, s[a]? ≠ some 'I' := by
  induction ps generalizing buf with
  | nil => simp [pauliPasses]
  | cons p ps ih =>
    intro s hs
    simp only [pauliPasses, List.mem_append] at hs
    obtain ⟨h1, h2⟩ := axisPass_poison n1 n2 a p buf (List.range n)
      (hp p (List.mem_cons_self p ps)) hbuf
    rcases hs with hs | hs
    · exact h2 s hs
    · exact ih _ (fun q hq => hp q (List.mem_cons_of_mem p hq)) h1 s hs

/-- The snapshot stream of one edge (a, b), a < b < n, is an all-Identity
prefix of length a followed by snapshots that are never Identity at
position a. -/
lemma edge_snapshots_structure (n a b : ℕ) (hab : a < b) (hbn : b < n) :
    ∃ rest : List (List Char),
      (pauliPasses n a b (List.replicate n 'I') ['X', 'Y', 'Z']).2 =
          List.replicate a (List.replicate n 'I') ++ rest ∧
        ∀ s ∈ rest, s[a]? ≠ some 'I' := by
  have han : a < n := lt_trans hab hbn
  have hsplit : List.range n = List.range a ++ List.range' a (n - a) := by
    rw [← List.take_append_drop a (List.range n), List.take_range, drop_range,
      Nat.min_eq_left han.le]
  have hfront := axisPass_no_touch a b 'X' (List.replicate n 'I')
    (List.range a) (by
      intro i hi
      rw [List.mem_range] at hi
      omega)
  rw [List.length_range] at hfront
  have htail : List.range' a (n - a) = a :: List.range' (a + 1) (n - a - 1) := by
    rw [← List.range'_succ a (n - a - 1) 1]
    congr 1
    omega
  set buf1 := (List.replicate n 'I').set a 'X' with hbuf1def
  set rX := axisPass a b 'X' buf1 (List.range' (a + 1) (n - a - 1)) with hrXdef
  -- the first index of the tail segment writes the axis symbol at a
  have hbufa : buf1[a]? ≠ some 'I' := by
    rw [hbuf1def, List.getElem?_set, if_pos rfl,
      if_pos (by simpa using han)]
    simp
  -- X pass decomposition
  have hx : axisPass a b 'X' (List.replicate n 'I') (List.range n) =
      (rX.1, List.replicate a (List.replicate n 'I') ++ (buf1 :: rX.2)) := by
    rw [hsplit, axisPass_append, hfront]
    simp only []
    rw [htail]
    simp [axisPass, hrXdef]
  obtain ⟨hpois1, hpois2⟩ := axisPass_poison a b a 'X' buf1
    (List.range' (a + 1) (n - a - 1)) (by decide) hbufa
  have hyz := pauliPasses_poison n a b a rX.1 ['Y', 'Z']
    (by decide) hpois1
  refine ⟨(buf1 :: rX.2) ++ (pauliPasses n a b rX.1 ['Y', 'Z']).2, ?_, ?_⟩
  · show (pauliPasses n a b (List.replicate n 'I') ('X' :: ['Y', 'Z'])).2 = _
    rw [pauliPasses, hx]
    simp [List.append_assoc]
  · intro str hstr
    rcases List.mem_append.1 hstr with hstr | hstr
    · rcases List.mem_cons.1 hstr with rfl | hstr
      · exact hbufa
      · exact hpois2 str hstr
    · exact hyz str hstr

/-- C9: for every edge (a, b) with a < b of the generated graph, the first
a terms of that edge's emission are all-Identity strings carrying the
edge's coupling weight, the emission contains exactly min(a, b)
all-Identity terms, and for at least 3 nodes the Hamiltonian contains an
all-Identity term. -/
theorem identity_terms_per_edge (n : ℕ) (m : ℕ → Vec3) (s : ℝ)
    (a b : ℕ) (w : ℝ)
    (h : (a, b, w) ∈ (generate_heisenberg_graph n m s).edges) :
    ((((pauliPasses n a b (List.replicate n 'I') ['X', 'Y', 'Z']).2).map
        fun str => (str, w)).take a =
      List.replicate a (List.replicate n 'I', w)) ∧
    ((((pauliPasses n a b (List.replicate n 'I') ['X', 'Y', 'Z']).2).map
        fun str => (str, w)).countP
        (fun t => t.1 == List.replicate n 'I') = min a b) ∧
    (3 ≤ n → ∃ w' : ℝ, (List.replicate n 'I', w') ∈
      nx_heisenberg_terms (generate_heisenberg_graph n m s)) := by
  obtain ⟨hab, hbn, -⟩ := (mem_edges_iff n m s a b w).1 h
  have han : a < n := lt_trans hab hbn
  obtain ⟨rest, hdecomp, hpois⟩ := edge_snapshots_structure n a b hab hbn
  have hrepId : ∀ i, i < n → (List.replicate n 'I')[i]? = some 'I' := by
    intro i hi
    rw [List.getElem?_replicate, if_pos hi]
  refine ⟨?_, ?_, ?_⟩
  · rw [hdecomp, List.map_append, List.map_replicate]
    exact List.take_left' (by rw [List.length_replicate])
  · rw [hdecomp, List.countP_map, List.countP_append, List.countP_replicate]
    have hz : rest.countP
        ((fun t : List Char × ℝ => t.1 == List.replicate n 'I') ∘
          fun str => (str, w)) = 0 := by
      rw [List.countP_eq_zero]
      intro str hstr
      simp only [Function.comp_apply, beq_iff_eq]
      intro hcontr
      exact hpois str hstr (by rw [hcontr, hrepId a han])
    rw [hz, Nat.min_eq_left hab.le]
    simp
  · intro h3
    have hmem12 : ((1 : ℕ), (2 : ℕ), gen_couplings n 1 2 m) ∈
        (generate_heisenberg_graph n m s).edges :=
      (mem_edges_iff n m s 1 2 _).2 ⟨by omega, by omega, rfl⟩
    obtain ⟨rest12, hdec12, -⟩ :=
      edge_snapshots_structure n 1 2 (by omega) (by omega)
    refine ⟨gen_couplings n 1 2 m, ?_⟩
    simp only [nx_heisenberg_terms, List.mem_flatMap]
    refine ⟨(1, 2, gen_couplings n 1 2 m), hmem12, ?_⟩
    have hnodes : (generate_heisenberg_graph n m s).nodes.length = n := by
      simp [generate_heisenberg_graph]
    rw [hnodes]
    rw [List.mem_map]
    refine ⟨List.replicate n 'I', ?_, rfl⟩
    rw [hdec12]
    exact List.mem_append_left _ (by
      have : (0 : ℕ) < 1 := Nat.zero_lt_one
      simp [List.mem_replicate])

/-- Concrete instance of identity_terms_per_edge on the 3-particle graph's
edge (1, 2): one leading all-Identity term, one all-Identity term in the
whole emission, and an all-Identity term in the full Hamiltonian. -/
theorem identity_terms_per_edge_witness :
    ((((pauliPasses 3 1 2 (List.replicate 3 'I') ['X', 'Y', 'Z']).2).map
        fun str => (str, gen_couplings 3 1 2 fun _ => ((1 : ℝ), 0, 0))).take 1 =
      List.replicate 1 (List.replicate 3 'I',
        gen_couplings 3 1 2 fun _ => ((1 : ℝ), 0, 0))) ∧
    ((((pauliPasses 3 1 2 (List.replicate 3 'I') ['X', 'Y', 'Z']).2).map
        fun str => (str, gen_couplings 3 1 2 fun _ => ((1 : ℝ), 0, 0))).countP
        (fun t => t.1 == List.replicate 3 'I') = min 1 2) ∧
    (∃ w' : ℝ, (List.replicate 3 'I', w') ∈
      nx_heisenberg_terms
        (generate_heisenberg_graph 3 (fun _ => ((1 : ℝ), 0, 0)) 0)) := by
  have hmem := (mem_edges_iff 3 (fun _ => ((1 : ℝ), 0, 0)) 0 1 2
    (gen_couplings 3 1 2 fun _ => ((1 : ℝ), 0, 0))).2
    ⟨by norm_num, by norm_num, rfl⟩
  have h := identity_terms_per_edge 3 (fun _ => ((1 : ℝ), 0, 0)) 0 1 2
    (gen_couplings 3 1 2 fun _ => ((1 : ℝ), 0, 0)) hmem
  exact ⟨h.1, h.2.1, h.2.2 (by norm_num)⟩

/-- C10: for a positive particle count and unit-norm momenta, the coupling
weight lies in the closed interval from 0 to sqrt 2 / n; in particular it
is never negative. -/
theorem coupling_weight_bounds (n : ℕ) (p q : Vec3) (hn : 0 < n)
    (hp : norm3 p = 1) (hq : norm3 q = 1) :
    0 ≤ define_forward_scattering_term n p q ∧
      define_forward_scattering_term n p q ≤ Real.sqrt 2 / n := by
  have hp0 : (0 : ℝ) ≤ p.1 ^ 2 + p.2.1 ^ 2 + p.2.2 ^ 2 := by positivity
  have hq0 : (0 : ℝ) ≤ q.1 ^ 2 + q.2.1 ^ 2 + q.2.2 ^ 2 := by positivity
  have hSp : p.1 ^ 2 + p.2.1 ^ 2 + p.2.2 ^ 2 = 1 := by
    have hr := Real.sq_sqrt hp0
    rw [norm3] at hp
    rw [hp] at hr
    simpa using hr.symm
  have hSq : q.1 ^ 2 + q.2.1 ^ 2 + q.2.2 ^ 2 = 1 := by
    have hr := Real.sq_sqrt hq0
    rw [norm3] at hq
    rw [hq] at hr
    simpa using hr.symm
  have hub : inner3 p q ≤ 1 := by
    simp only [inner3]
    nlinarith [sq_nonneg (p.1 - q.1), sq_nonneg (p.2.1 - q.2.1),
      sq_nonneg (p.2.2 - q.2.2)]
  have hlb : -1 ≤ inner3 p q := by
    simp only [inner3]
    nlinarith [sq_nonneg (p.1 + q.1), sq_nonneg (p.2.1 + q.2.1),
      sq_nonneg (p.2.2 + q.2.2)]
  have hs2 : (0 : ℝ) < Real.sqrt 2 := Real.sqrt_pos.mpr (by norm_num)
  have h2 : Real.sqrt 2 * Real.sqrt 2 = 2 :=
    Real.mul_self_sqrt (by norm_num)
  have hnR : (0 : ℝ) < (n : ℝ) := by exact_mod_cast hn
  have hfac : (0 : ℝ) < 1 / (Real.sqrt 2 * n) := by positivity
  constructor
  · show (0 : ℝ) ≤ 1 / (Real.sqrt 2 * n) * (1 - inner3 p q)
    exact mul_nonneg hfac.le (by linarith)
  · show 1 / (Real.sqrt 2 * n) * (1 - inner3 p q) ≤ Real.sqrt 2 / n
    have hstep : 1 / (Real.sqrt 2 * n) * (1 - inner3 p q) ≤
        1 / (Real.sqrt 2 * n) * 2 :=
      mul_le_mul_of_nonneg_left (by linarith) hfac.le
    have heq : 1 / (Real.sqrt 2 * (n : ℝ)) * 2 = Real.sqrt 2 / n := by
      have hns : Real.sqrt 2 * (n : ℝ) ≠ 0 := by positivity
      rw [div_mul_eq_mul_div, one_mul, div_eq_div_iff hns (ne_of_gt hnR)]
      linear_combination (-(n : ℝ)) * h2
    linarith

/-- Concrete instance of coupling_weight_bounds: one particle, orthogonal
unit momenta. -/
theorem coupling_weight_bounds_witness :
    0 < 1 ∧ norm3 ((1 : ℝ), 0, 0) = 1 ∧ norm3 ((0 : ℝ), 1, 0) = 1 ∧
      0 ≤ define_forward_scattering_term 1 ((1 : ℝ), 0, 0) ((0 : ℝ), 1, 0) ∧
      define_forward_scattering_term 1 ((1 : ℝ), 0, 0) ((0 : ℝ), 1, 0) ≤
        Real.sqrt 2 / 1 := by
  have h1 : norm3 ((1 : ℝ), 0, 0) = 1 := by
    norm_num [norm3, Real.sqrt_one]
  have h2 : norm3 ((0 : ℝ), 1, 0) = 1 := by
    norm_num [norm3, Real.sqrt_one]
  obtain ⟨hl, hr⟩ := coupling_weight_bounds 1 ((1 : ℝ), 0, 0)
    ((0 : ℝ), 1, 0) one_pos h1 h2
  exact ⟨one_pos, h1, h2, hl, by exact_mod_cast hr⟩

end QCDRE
